import Mathlib

/-!
Verification development for the craystack codec algebra
(src/craystack/craystack/codecs.py).

The file embeds the codec layer shallowly in Lean:

* Machine integers become Nat; bit operations are written arithmetically
  (x & ((1 << k) - 1) becomes x % 2 ^ k, x >> k becomes x / 2 ^ k,
  a disjoint-bit `or` becomes +).
* Assertions become Option results (none = the assertion fires).
* The external rANS primitive (craystack.vectorans, out of scope of the
  repository sources) is modelled from the spec as a single big-integer
  state per lane; vectorized heads are lists of lanes sharing one tail.
-/

/-- Modelled from the spec: craystack.vectorans is absent from the sources.
The spec describes it as a black-box rANS stack primitive with
push(message, start, freq, precision) and the LIFO discipline that pop
exactly inverts push.  One lane of coder state is modelled as an unbounded
natural number; push is the exact rANS step at the given precision. -/
def vpush (m start freq p : ℕ) : ℕ :=
  m / freq * 2 ^ p + start + m % freq

/-- Modelled from the spec: the cumulative-frequency value returned by the
vectorans pop primitive, namely the low precision bits of the state. -/
def vcf (m p : ℕ) : ℕ := m % 2 ^ p

/-- Modelled from the spec: the finish(start, freq) continuation returned by
the vectorans pop primitive, consuming the decoded interval. -/
def vfinish (m start freq p : ℕ) : ℕ :=
  freq * (m / 2 ^ p) + (vcf m p - start)

/-- NonUniform push (codecs.py lines 54-56): look up the symbol interval with
enc_statfun and delegate to the primitive push. -/
def nonUniformPush {S : Type} (enc : S → ℕ × ℕ) (p : ℕ) (m : ℕ) (s : S) : ℕ :=
  vpush m (enc s).1 (enc s).2 p

/-- NonUniform pop (codecs.py lines 58-63): read cf from the primitive,
decode the symbol, recompute its interval, assert start <= cf < start + freq
(none when the assertion fires) and finish the primitive pop. -/
def nonUniformPop {S : Type} (enc : S → ℕ × ℕ) (dec : ℕ → S) (p : ℕ) (m : ℕ) :
    Option (ℕ × S) :=
  if (enc (dec (vcf m p))).1 ≤ vcf m p ∧
      vcf m p < (enc (dec (vcf m p))).1 + (enc (dec (vcf m p))).2 then
    some (vfinish m (enc (dec (vcf m p))).1 (enc (dec (vcf m p))).2 p, dec (vcf m p))
  else none

/-- Uniform encode statfun (codecs.py line 164): s maps to (s, 1). -/
def uniformEnc (s : ℕ) : ℕ × ℕ := (s, 1)

/-- Uniform decode statfun (codecs.py line 165): cf maps to cf. -/
def uniformDec (cf : ℕ) : ℕ := cf

/-- Uniform codec push (codecs.py lines 177-182): NonUniform with the uniform
statfuns. -/
def uniformPush (p m s : ℕ) : ℕ := nonUniformPush uniformEnc p m s

/-- Uniform codec pop (codecs.py lines 177-182). -/
def uniformPop (p m : ℕ) : Option (ℕ × ℕ) := nonUniformPop uniformEnc uniformDec p m

/-- Repeat push (codecs.py lines 74-78): assert the symbol sequence has
length n, then push the symbols in reversed order. -/
def repeatPush {M S : Type} (push_ : M → S → M) (n : ℕ) (m : M) (syms : List S) :
    Option M :=
  if syms.length = n then some (syms.reverse.foldl push_ m) else none

/-- Repeat pop (codecs.py lines 80-85): pop n symbols in order, collecting
them front to back. -/
def repeatPop {M S : Type} (pop_ : M → Option (M × S)) : ℕ → M → Option (M × List S)
  | 0, m => some (m, [])
  | n + 1, m =>
    (pop_ m).bind fun r =>
      (repeatPop pop_ n r.1).map fun q => (q.1, r.2 :: q.2)

/-- Fueled exact binary logarithm: the index of the leading bit of n, with
64 fuel steps covering every n < 2 ^ 64.  This is NOT an embedding of the
float64 expression np.uint64(np.log2 x) of codecs.py line 197; it is the
leading-bit index that expression is intended to compute (the Benford64
docstring promises the code works on all of [2 ^ 31, 2 ^ 63)).  The float64
pipeline deviates from it for inputs just below large powers of two, e.g.
it yields 49 at x = 2 ^ 49 - 1 (log2 rounds up to 49.0) and 63 at
x = 2 ^ 63 - 1 (the int-to-float64 conversion rounds to 2 ^ 63); the
Benford64 push below therefore takes its computed length as a parameter. -/
def log2F : ℕ → ℕ → ℕ
  | 0, _ => 0
  | f + 1, n => if 2 ≤ n then log2F f (n / 2) + 1 else 0

/-- Exact leading-bit index (see log2F): the intended value of the x_len
computation of Benford64, not its float64 realization. -/
def ilog2 (n : ℕ) : ℕ := log2F 64 n

/-- Low 31 bits pushed first by Benford64 push (codecs.py line 196):
x & ((1 << 31) - 1). -/
def benfLow (x : ℕ) : ℕ := x % 2 ^ 31

/-- Length delta that Benford64 push intends to code (codecs.py line 201):
x_len - 31 with x_len the leading-bit index; the code's float64 x_len can
exceed this by one near powers of two. -/
def benfLenDelta (x : ℕ) : ℕ := ilog2 x - 31

/-- High bits that Benford64 push intends to code (codecs.py lines
198-200): after removing the leading one, the bits above position 31. -/
def benfHigh (x : ℕ) : ℕ := x % 2 ^ ilog2 x / 2 ^ 31

/-- Benford64 push (codecs.py lines 195-202) with the computed integer
length abstracted as a parameter: the source computes
x_len = np.uint64(np.log2(x)) through float64 (not formalized here; see
log2F) and then pushes the low 31 bits x & ((1 << 31) - 1) uniformly, the
high bits (x & ((1 << x_len) - 1)) >> 31 uniformly at width x_len - 31, and
the length delta x_len - 31 uniformly at precision 5.  Instantiating xlenF
with the exact leading-bit index gives the documented intent; instantiating
it with any value the float64 pipeline is known to produce at a given input
traces the program there. -/
def benfPushF (xlenF : ℕ → ℕ) (m x : ℕ) : ℕ :=
  uniformPush 5
    (uniformPush (xlenF x - 31) (uniformPush 31 m (x % 2 ^ 31))
      (x % 2 ^ xlenF x / 2 ^ 31))
    (xlenF x - 31)

/-- Benford64 push at the exact leading-bit index: the idealized intent of
codecs.py lines 195-202 (see benfPushF for the float64 caveat). -/
def benfPush (m x : ℕ) : ℕ := benfPushF ilog2 m x

/-- Benford64 pop (codecs.py lines 204-210): pop the length delta, the high
bits at the recovered width, the low 31 bits, and reassemble
(1 << x_len) | (x_higher << 31) | x_lower (the three parts occupy disjoint
bit ranges, so the or is a sum). -/
def benfPop (m : ℕ) : Option (ℕ × ℕ) :=
  (uniformPop 5 m).bind fun r1 =>
    (uniformPop (r1.2 + 31 - 31) r1.1).bind fun r2 =>
      (uniformPop 31 r2.1).bind fun r3 =>
        some (r3.1, 2 ^ (r1.2 + 31) + r2.2 * 2 ^ 31 + r3.2)

/-- Total form of benfPop: the uniform statfuns never trip the NonUniform
assertion, so the pop is a plain function of the state. -/
def benfPopT (m : ℕ) : ℕ × ℕ :=
  (m / 2 ^ 5 / 2 ^ (m % 2 ^ 5) / 2 ^ 31,
    2 ^ (m % 2 ^ 5 + 31) + m / 2 ^ 5 % 2 ^ (m % 2 ^ 5) * 2 ^ 31 +
      m / 2 ^ 5 / 2 ^ (m % 2 ^ 5) % 2 ^ 31)

/-- Vectorized Benford64 push as used through substack by the fold codecs
(codecs.py line 239): each lane of the sub-head codes one data word; lanes
are independent under the lane-wise vectorans model and the tail is passed
through.  The computed-length function is a parameter, as in benfPushF. -/
def benfPushV {τ : Type} (xlenF : ℕ → ℕ) (msg : List ℕ × τ) (xs : List ℕ) :
    List ℕ × τ :=
  (List.zipWith (benfPushF xlenF) msg.1 xs, msg.2)

/-- Lane-wise Benford64 pops; none if any lane fails (the np.all aggregation
of the NonUniform assertion). -/
def popLanes : List ℕ → Option (List (ℕ × ℕ))
  | [] => some []
  | h :: rest =>
    (benfPop h).bind fun r => (popLanes rest).map fun rs => r :: rs

/-- Vectorized Benford64 pop as used through substack by the fold codecs. -/
def benfPopV {τ : Type} (msg : List ℕ × τ) : Option ((List ℕ × τ) × List ℕ) :=
  (popLanes msg.1).map fun rs => ((rs.map Prod.fst, msg.2), rs.map Prod.snd)

/-- Modelled from the spec together with substack (codecs.py lines 109-128):
craystack.util.view_update is absent from the sources; the spec describes it
as a view-plus-update capability and suggests an offset-and-length sub-range
descriptor.  substack push runs the inner codec on the selected slice of the
head and writes the (possibly resized) result back over that slice. -/
def substackPush {τ δ : Type} (pushI : List ℕ × τ → δ → List ℕ × τ) (off len : ℕ)
    (msg : List ℕ × τ) (data : δ) : List ℕ × τ :=
  let res := pushI ((msg.1.drop off).take len, msg.2) data
  (msg.1.take off ++ res.1 ++ msg.1.drop (off + len), res.2)

/-- substack pop (codecs.py lines 123-127): run the inner pop on the selected
slice, write the result back through the update function, return the inner
tail and the popped data unchanged. -/
def substackPop {τ δ : Type} (popI : List ℕ × τ → Option ((List ℕ × τ) × δ))
    (off len : ℕ) (msg : List ℕ × τ) : Option ((List ℕ × τ) × δ) :=
  (popI ((msg.1.drop off).take len, msg.2)).map fun r =>
    ((msg.1.take off ++ r.1.1 ++ msg.1.drop (off + len), r.1.2), r.2)

/-- Fold codec push (codecs.py line 239): substack(Benford64, head[:diff]),
a prefix view of the head. -/
def foldPush {τ : Type} (xlenF : ℕ → ℕ) (d : ℕ) (msg : List ℕ × τ)
    (data : List ℕ) : List ℕ × τ :=
  substackPush (benfPushV xlenF) 0 d msg data

/-- Fold codec pop (codecs.py line 239). -/
def foldPop {τ : Type} (d : ℕ) (msg : List ℕ × τ) :
    Option ((List ℕ × τ) × List ℕ) :=
  substackPop benfPopV 0 d msg

/-- One shrink iteration of _resize_head_1d (codecs.py line 250): push the
lanes beyond the new size through the fold codec applied to the truncated
head. -/
def shrinkStep {τ : Type} (xlenF : ℕ → ℕ) (sj d : ℕ) (msg : List ℕ × τ) :
    List ℕ × τ :=
  foldPush xlenF d (msg.1.take sj, msg.2) (msg.1.drop sj)

/-- The shrink loop of _resize_head_1d (codecs.py lines 248-250): iterate
over the reversed list of (new size, diff) pairs. -/
def shrinkLoop {τ : Type} (xlenF : ℕ → ℕ) :
    List (ℕ × ℕ) → List ℕ × τ → List ℕ × τ
  | [], msg => msg
  | p :: rest, msg => shrinkLoop xlenF rest (shrinkStep xlenF p.1 p.2 msg)

/-- One grow iteration of _resize_head_1d (codecs.py lines 252-254): pop the
fold codec and concatenate the recovered lanes onto the head. -/
def growStep {τ : Type} (d : ℕ) (msg : List ℕ × τ) : Option (List ℕ × τ) :=
  (foldPop d msg).map fun r => (r.1.1 ++ r.2, r.1.2)

/-- The grow loop of _resize_head_1d (codecs.py lines 251-254). -/
def growLoop {τ : Type} : List ℕ → List ℕ × τ → Option (List ℕ × τ)
  | [], msg => some msg
  | d :: rest, msg => (growStep d msg).bind (growLoop rest)

/-- Fueled _fold_sizes (codecs.py lines 232-237): starting from small,
repeatedly double (capped at big) until big is reached.  The source loop has
no fuel; a return of none for every fuel models non-termination. -/
def foldSizesF : ℕ → ℕ → ℕ → Option (List ℕ)
  | 0, _, _ => none
  | fuel + 1, small, big =>
    if small = big then some [small]
    else (foldSizesF fuel (if 2 * small ≤ big then 2 * small else big) big).map
      (small :: ·)

/-- Termination predicate for the _fold_sizes loop. -/
def foldSizesTerminates (small big : ℕ) : Prop :=
  ∃ fuel, (foldSizesF fuel small big).isSome

/-- Consecutive differences of the size schedule
(np.subtract(sizes[1:], sizes[:-1]), codecs.py line 242). -/
def sizeDiffs (sizes : List ℕ) : List ℕ :=
  List.zipWith (fun b a => b - a) sizes.tail sizes

/-- _resize_head_1d (codecs.py lines 244-255) on a 1-d head: compute the
fold schedule between the sorted pair of sizes, then run the shrink or grow
loop.  The fuel big + 1 - small covers every terminating run of the source
loop; the sizes grow by at least one per iteration whenever they grow at
all, and a stuck loop yields none for every fuel. -/
def resizeHead {τ : Type} (xlenF : ℕ → ℕ) (msg : List ℕ × τ) (size : ℕ) :
    Option (List ℕ × τ) :=
  (foldSizesF (max size msg.1.length + 1 - min size msg.1.length)
      (min size msg.1.length) (max size msg.1.length)).bind fun sizes =>
    if size < msg.1.length then
      some (shrinkLoop xlenF ((sizes.dropLast.zip (sizeDiffs sizes)).reverse) msg)
    else if msg.1.length < size then growLoop (sizeDiffs sizes) msg
    else some msg

/-- reshape_head (codecs.py lines 257-265) restricted to 1-d target shapes
(n,): np.ravel and np.reshape are the identity on 1-d heads, so this is
_resize_head_1d at size n.  The Benford64 computed-length function is a
parameter, as in benfPushF. -/
def reshapeHead {τ : Type} (xlenF : ℕ → ℕ) (msg : List ℕ × τ) (n : ℕ) :
    Option (List ℕ × τ) :=
  resizeHead xlenF msg n

/-- Zero-frequency fix of _cumulative_buckets_from_probs (codecs.py
line 302): probs[probs == 0] = 1.  The input list is the integer vector
np.rint(probs * (1 << precision)) of one probability row. -/
def fixZeros (probs : List ℤ) : List ℤ :=
  probs.map fun q => if q = 0 then 1 else q

/-- Maximum entry of a nonempty integer list (np.max over the last axis). -/
def maxVal : List ℤ → ℤ
  | [] => 0
  | q :: qs => qs.foldl max q

/-- Add a correction to the first entry equal to v: the effect of
np.put_along_axis at np.argmax (codecs.py lines 305-311), since np.argmax
returns the first index attaining the maximum. -/
def bumpFirst (v add : ℤ) : List ℤ → List ℤ
  | [] => []
  | q :: qs => if q = v then (q + add) :: qs else q :: bumpFirst v add qs

/-- Rebalancing step of _cumulative_buckets_from_probs (codecs.py lines
301-311): force zero buckets to one, compute the mass deficit against
2 ^ precision, assert the largest bucket stays positive after absorbing the
deficit (none if not: the cannot-rebalance condition; also none for an empty
row, where np.argmax raises), and absorb the deficit into the first largest
bucket. -/
def rebalance (probs : List ℤ) (p : ℕ) : Option (List ℤ) :=
  match probs with
  | [] => none
  | q0 :: qs =>
    let l := fixZeros (q0 :: qs)
    let mx := maxVal l
    let diff := 2 ^ p - l.sum
    if mx + diff ≤ 0 then none
    else some (bumpFirst mx diff l)

/-- Cumulative sums with a leading accumulator entry:
concatenate([[acc], cumsum(l)]). -/
def cumFrom (acc : ℤ) : List ℤ → List ℤ
  | [] => [acc]
  | q :: qs => acc :: cumFrom (acc + q) qs

/-- _cumulative_buckets_from_probs (codecs.py lines 299-313) on one row of
already-rounded integer probabilities: rebalance, then prefix the cumulative
sums with zero. -/
def cumulativeBucketsFromProbs (probs : List ℤ) (p : ℕ) : Option (List ℤ) :=
  (rebalance probs p).map (cumFrom 0)

/-- AutoRegressive push (codecs.py lines 538-545) on the default path where
all parameters are recomputed by one call of param_fn on the fully known
data: push the elements in the reverse of elem_idxs, coding element idx with
elem_codec(all_params[idx], idx).  Data buffers are total maps from index to
value, modelling the fixed-shape numpy arrays. -/
def arPush {π : Type} (paramFn : (ℕ → ℕ) → ℕ → π) (elemIdxs : List ℕ)
    (elemPush : π → ℕ → ℕ → ℕ → ℕ) (m : ℕ) (data : ℕ → ℕ) : ℕ :=
  elemIdxs.reverse.foldl
    (fun msg idx => elemPush (paramFn data idx) idx msg (data idx)) m

/-- Loop of AutoRegressive pop (codecs.py lines 550-555): visit elem_idxs in
order; re-invoke param_fn on the current data and parameter buffers, decode
the element with elem_codec, write it into the data buffer, continue. -/
def arPopGo {π : Type} (paramFnInc : (ℕ → ℕ) → (ℕ → π) → ℕ → (ℕ → π))
    (elemPop : π → ℕ → ℕ → Option (ℕ × ℕ)) :
    List ℕ → ℕ → (ℕ → ℕ) → (ℕ → π) → Option (ℕ × (ℕ → ℕ))
  | [], m, data, _ => some (m, data)
  | idx :: rest, m, data, ps =>
    let ps' := paramFnInc data ps idx
    (elemPop (ps' idx) idx m).bind fun r =>
      arPopGo paramFnInc elemPop rest r.1 (Function.update data idx r.2) ps'

/-- AutoRegressive pop (codecs.py lines 547-556): start from zeroed data and
parameter buffers and run the sequential loop. -/
def arPop {π : Type} (z : π) (paramFnInc : (ℕ → ℕ) → (ℕ → π) → ℕ → (ℕ → π))
    (elemIdxs : List ℕ) (elemPop : π → ℕ → ℕ → Option (ℕ × ℕ)) (m : ℕ) :
    Option (ℕ × (ℕ → ℕ)) :=
  arPopGo paramFnInc elemPop elemIdxs m (fun _ => 0) (fun _ => z)

/-- Sum of the data entries strictly below index i: the parameter function of
the spec's three-element autoregressive scenario (params of element i are
sum(data[0:i])). -/
def sumBelow (data : ℕ → ℕ) (i : ℕ) : ℕ :=
  ((List.range i).map data).sum

/-- Incremental form of the scenario parameter function for pop: recompute
the parameter at the visited index from the currently decoded data, keeping
the rest of the parameter buffer. -/
def sumBelowInc (data : ℕ → ℕ) (old : ℕ → ℕ) (idx : ℕ) : ℕ → ℕ :=
  fun i => if i = idx then sumBelow data idx else old i

/-- Parameter-shifted encode statfun at precision 8, a concrete elem_codec
whose coding depends on the parameter: symbol s occupies the unit interval
starting at (s + p) mod 256. -/
def shiftEnc (p s : ℕ) : ℕ × ℕ := ((s + p) % 2 ^ 8, 1)

/-- Decode statfun inverting shiftEnc on symbols below 256. -/
def shiftDec (p cf : ℕ) : ℕ := (cf + 2 ^ 8 - p % 2 ^ 8) % 2 ^ 8

/-- Element push for the autoregressive scenario: NonUniform with the
shifted statfuns at precision 8. -/
def shiftElemPush (p _idx m s : ℕ) : ℕ := nonUniformPush (shiftEnc p) 8 m s

/-- Element pop for the autoregressive scenario. -/
def shiftElemPop (p _idx m : ℕ) : Option (ℕ × ℕ) :=
  nonUniformPop (shiftEnc p) (shiftDec p) 8 m

/-- Model of a Python value passed as the optional all_params argument of
AutoRegressive push: either None or a numpy float array (one row, entries
as exact rationals). -/
inductive PyVal : Type
  | pynone : PyVal
  | arr : List ℚ → PyVal

/-- Truth value of a numpy array: empty arrays are falsy, one-element arrays
take the truth value of their entry, larger arrays raise ValueError (none). -/
def npBool : List ℚ → Option Bool
  | [] => some false
  | [x] => some (decide (x ≠ 0))
  | _ :: _ :: _ => none

/-- Evaluation of the Python expression not all_params. -/
def pyNot : PyVal → Option Bool
  | PyVal.pynone => some true
  | PyVal.arr l => (npBool l).map fun b => !b

/-- The array held by a PyVal (only reached when the value is an array). -/
def pyArr : PyVal → List ℚ
  | PyVal.pynone => []
  | PyVal.arr l => l

/-- The push loop of AutoRegressive (codecs.py lines 541-545) over a given
parameter array, indexing params by element index. -/
def arPushCore (elemIdxs : List ℕ) (ep : ℚ → ℕ → ℕ → ℕ → ℕ) (m : ℕ)
    (data : ℕ → ℕ) (ps : List ℚ) : ℕ :=
  elemIdxs.reverse.foldl (fun msg idx => ep (ps.getD idx 0) idx msg (data idx)) m

/-- AutoRegressive push with the optional all_params argument (codecs.py
lines 538-545): evaluate not all_params under Python and numpy truth-value
semantics (none models the ValueError raised for arrays of two or more
elements); when truthy, recompute the parameters with one param_fn call. -/
def arPushNp (paramFn : (ℕ → ℕ) → List ℚ) (elemIdxs : List ℕ)
    (ep : ℚ → ℕ → ℕ → ℕ → ℕ) (m : ℕ) (data : ℕ → ℕ) (allParams : PyVal) :
    Option ℕ :=
  (pyNot allParams).map fun b =>
    arPushCore elemIdxs ep m data (if b then paramFn data else pyArr allParams)

-- ===== THEOREMS =====

theorem vpush_roundtrip_cf (m start freq p : ℕ) (hf : 0 < freq)
    (hub : start + freq ≤ 2 ^ p) :
    vcf (vpush m start freq p) p = start + m % freq := by
  have hr : m % freq < freq := Nat.mod_lt m hf
  have hlt : start + m % freq < 2 ^ p := by omega
  simp only [vpush, vcf]
  rw [Nat.add_assoc, Nat.add_comm (m / freq * 2 ^ p), Nat.mul_comm (m / freq),
    Nat.add_mul_mod_self_left, Nat.mod_eq_of_lt hlt]

theorem vpush_roundtrip_finish (m start freq p : ℕ) (hf : 0 < freq)
    (hub : start + freq ≤ 2 ^ p) :
    vfinish (vpush m start freq p) start freq p = m := by
  have hr : m % freq < freq := Nat.mod_lt m hf
  have hlt : start + m % freq < 2 ^ p := by omega
  have hdiv : vpush m start freq p / 2 ^ p = m / freq := by
    simp only [vpush]
    rw [Nat.add_assoc, Nat.mul_comm (m / freq),
      Nat.mul_add_div (Nat.pos_pow_of_pos p (by omega)),
      Nat.div_eq_of_lt hlt, Nat.add_zero]
  have hcf := vpush_roundtrip_cf m start freq p hf hub
  simp only [vfinish, hcf, hdiv]
  rw [Nat.add_sub_cancel_left]
  exact Nat.div_add_mod m freq

/-- Scalar round-trip for NonUniform: with a well-formed interval and a
decode statfun that inverts the encode statfun on it, pop inverts push. -/
theorem nonUniform_roundtrip {S : Type} (enc : S → ℕ × ℕ) (dec : ℕ → S) (p : ℕ)
    (m : ℕ) (s : S) (hf : 0 < (enc s).2) (hub : (enc s).1 + (enc s).2 ≤ 2 ^ p)
    (hdec : ∀ cf, (enc s).1 ≤ cf → cf < (enc s).1 + (enc s).2 → dec cf = s) :
    nonUniformPop enc dec p (nonUniformPush enc p m s) = some (m, s) := by
  have hr : m % (enc s).2 < (enc s).2 := Nat.mod_lt m hf
  have hcf : vcf (vpush m (enc s).1 (enc s).2 p) p = (enc s).1 + m % (enc s).2 :=
    vpush_roundtrip_cf m (enc s).1 (enc s).2 p hf hub
  have hfin : vfinish (vpush m (enc s).1 (enc s).2 p) (enc s).1 (enc s).2 p = m :=
    vpush_roundtrip_finish m (enc s).1 (enc s).2 p hf hub
  have hds : dec ((enc s).1 + m % (enc s).2) = s :=
    hdec _ (Nat.le_add_right _ _) (by omega)
  simp only [nonUniformPush, nonUniformPop, hcf, hds, hfin]
  have hcond : (enc s).1 ≤ (enc s).1 + m % (enc s).2 ∧
      (enc s).1 + m % (enc s).2 < (enc s).1 + (enc s).2 := by omega
  rw [if_pos hcond]

/-- Generic repeat round-trip: if the element codec round-trips on valid
symbols then repeat round-trips on lists of valid symbols. -/
theorem repeat_roundtrip {M S : Type} (push_ : M → S → M) (pop_ : M → Option (M × S))
    (valid : S → Prop) (h : ∀ m s, valid s → pop_ (push_ m s) = some (m, s)) :
    ∀ (syms : List S) (m : M), (∀ s ∈ syms, valid s) →
      repeatPop pop_ syms.length (syms.reverse.foldl push_ m) = some (m, syms) := by
  intro syms
  induction syms with
  | nil => intro m _; rfl
  | cons s rest ih =>
    intro m hv
    have hfold : ((s :: rest).reverse).foldl push_ m =
        push_ ((rest.reverse).foldl push_ m) s := by
      simp [List.foldl_append]
    have hpop := h ((rest.reverse).foldl push_ m) s (hv s (by simp))
    simp only [List.length_cons, repeatPop, hfold, hpop, Option.some_bind]
    rw [ih m (fun x hx => hv x (by simp [hx]))]
    rfl

theorem log2F_spec : ∀ (k f n : ℕ), k < f → 2 ^ k ≤ n → n < 2 ^ (k + 1) →
    log2F f n = k := by
  intro k
  induction k with
  | zero =>
    intro f n hf h1 h2
    match f, hf with
    | f + 1, _ =>
      simp only [log2F]
      have : ¬ 2 ≤ n := by omega
      simp [this]
  | succ k ih =>
    intro f n hf h1 h2
    match f, hf with
    | f + 1, hf =>
      have h2n : 2 ≤ n := by
        have : 2 ^ 1 ≤ 2 ^ (k + 1) := Nat.pow_le_pow_right (by omega) (by omega)
        omega
      simp only [log2F, if_pos h2n]
      have hd1 : 2 ^ k ≤ n / 2 := by
        have := Nat.div_le_div_right (c := 2) h1
        simpa [Nat.pow_succ, Nat.mul_div_cancel] using this
      have hd2 : n / 2 < 2 ^ (k + 1) := by
        rw [Nat.div_lt_iff_lt_mul (by omega)]
        calc n < 2 ^ (k + 1 + 1) := h2
        _ = 2 ^ (k + 1) * 2 := by ring
      rw [ih f (n / 2) (by omega) hd1 hd2]

theorem ilog2_spec (k n : ℕ) (hk : k < 64) (h1 : 2 ^ k ≤ n) (h2 : n < 2 ^ (k + 1)) :
    ilog2 n = k :=
  log2F_spec k 64 n hk h1 h2

theorem uniformPush_eq (p m s : ℕ) : uniformPush p m s = m * 2 ^ p + s := by
  simp [uniformPush, nonUniformPush, uniformEnc, vpush, Nat.mod_one]

theorem uniformPop_eq (p m : ℕ) : uniformPop p m = some (m / 2 ^ p, m % 2 ^ p) := by
  have h : m % 2 ^ p ≤ m % 2 ^ p ∧ m % 2 ^ p < m % 2 ^ p + 1 := by omega
  simp [uniformPop, nonUniformPop, uniformEnc, uniformDec, vcf, vfinish, h]

theorem benfPop_eq (m : ℕ) : benfPop m = some (benfPopT m) := by
  simp only [benfPop, uniformPop_eq, Option.some_bind, benfPopT,
    Nat.add_sub_cancel]

/-- Pushing back the two components produced by a pop restores the state
exactly: the grow-then-shrink inverse at a single lane. -/
theorem benfPush_benfPopT (m : ℕ) :
    benfPush (benfPopT m).1 (benfPopT m).2 = m := by
  set len := m % 2 ^ 5 with hlen
  set m1 := m / 2 ^ 5 with hm1
  set hi := m1 % 2 ^ len with hhi
  set m2 := m1 / 2 ^ len with hm2
  set lo := m2 % 2 ^ 31 with hlo
  set m3 := m2 / 2 ^ 31 with hm3
  have hlen32 : len < 2 ^ 5 := Nat.mod_lt m (by norm_num)
  have hhi_lt : hi < 2 ^ len := Nat.mod_lt m1 (Nat.pos_pow_of_pos len (by omega))
  have hlo_lt : lo < 2 ^ 31 := Nat.mod_lt m2 (by norm_num)
  set x := 2 ^ (len + 31) + hi * 2 ^ 31 + lo with hx
  have hxfst : (benfPopT m).1 = m3 := rfl
  have hxsnd : (benfPopT m).2 = x := rfl
  rw [hxfst, hxsnd]
  have hxlog : ilog2 x = len + 31 := by
    apply ilog2_spec
    · omega
    · rw [hx]; omega
    · have h1 : hi * 2 ^ 31 ≤ (2 ^ len - 1) * 2 ^ 31 :=
        Nat.mul_le_mul_right _ (by omega)
      have h2 : (2 ^ len - 1) * 2 ^ 31 = 2 ^ (len + 31) - 2 ^ 31 := by
        rw [Nat.sub_mul, one_mul, pow_add]
      have h3 : 2 ^ (len + 31 + 1) = 2 ^ (len + 31) + 2 ^ (len + 31) := by
        rw [pow_succ]; ring
      have h4 : (2 : ℕ) ^ 31 ≤ 2 ^ (len + 31) :=
        Nat.pow_le_pow_right (by omega) (by omega)
      omega
  have hxmod31 : x % 2 ^ 31 = lo := by
    rw [hx, show 2 ^ (len + 31) + hi * 2 ^ 31 + lo =
      lo + 2 ^ 31 * (2 ^ len + hi) by rw [pow_add]; ring,
      Nat.add_mul_mod_self_left, Nat.mod_eq_of_lt hlo_lt]
  have hxmodlog : x % 2 ^ (len + 31) = hi * 2 ^ 31 + lo := by
    have hlt : hi * 2 ^ 31 + lo < 2 ^ (len + 31) := by
      have h1 : hi * 2 ^ 31 ≤ (2 ^ len - 1) * 2 ^ 31 :=
        Nat.mul_le_mul_right _ (by omega)
      have h2 : (2 ^ len - 1) * 2 ^ 31 = 2 ^ (len + 31) - 2 ^ 31 := by
        rw [Nat.sub_mul, one_mul, pow_add]
      have h4 : (2 : ℕ) ^ 31 ≤ 2 ^ (len + 31) :=
        Nat.pow_le_pow_right (by omega) (by omega)
      omega
    rw [hx, show 2 ^ (len + 31) + hi * 2 ^ 31 + lo =
      hi * 2 ^ 31 + lo + 2 ^ (len + 31) * 1 by ring,
      Nat.add_mul_mod_self_left, Nat.mod_eq_of_lt hlt]
  have hxhigh : x % 2 ^ (len + 31) / 2 ^ 31 = hi := by
    rw [hxmodlog, show hi * 2 ^ 31 + lo = 2 ^ 31 * hi + lo by ring,
      Nat.mul_add_div (by norm_num), Nat.div_eq_of_lt hlo_lt, Nat.add_zero]
  simp only [benfPush, benfPushF, hxlog, hxmod31, hxhigh,
    uniformPush_eq, Nat.add_sub_cancel]
  have e3 : m3 * 2 ^ 31 + lo = m2 := by
    have := Nat.div_add_mod m2 (2 ^ 31); omega
  rw [e3]
  have e2 : m2 * 2 ^ len + hi = m1 := by
    have h := Nat.div_add_mod m1 (2 ^ len)
    calc m2 * 2 ^ len + hi = 2 ^ len * m2 + hi := by ring
    _ = m1 := h
  rw [e2]
  have := Nat.div_add_mod m (2 ^ 5)
  omega

/-- Pop inverts push on Benford64's stated domain. -/
theorem benfPopT_benfPush (m x : ℕ) (h1 : 2 ^ 31 ≤ x) (h2 : x < 2 ^ 63) :
    benfPopT (benfPush m x) = (m, x) := by
  set k := ilog2 x with hk
  have hx0 : x ≠ 0 := by positivity
  have hklog : 2 ^ k ≤ x ∧ x < 2 ^ (k + 1) ∧ 31 ≤ k ∧ k < 63 := by
    have hex : ∃ j, j < 64 ∧ 2 ^ j ≤ x ∧ x < 2 ^ (j + 1) := by
      refine ⟨(Nat.log 2 x), ?_, ?_, ?_⟩
      · exact Nat.log_lt_of_lt_pow hx0 (lt_trans h2 (by norm_num))
      · exact Nat.pow_log_le_self 2 hx0
      · exact Nat.lt_pow_succ_log_self (by omega) x
    obtain ⟨j, hj64, hjle, hjlt⟩ := hex
    have : k = j := by rw [hk]; exact ilog2_spec j x hj64 hjle hjlt
    rw [this]
    refine ⟨hjle, hjlt, ?_, ?_⟩
    · by_contra hcon
      have : j + 1 ≤ 31 := by omega
      have : (2 : ℕ) ^ (j + 1) ≤ 2 ^ 31 := Nat.pow_le_pow_right (by omega) this
      omega
    · by_contra hcon
      have : (2 : ℕ) ^ 63 ≤ 2 ^ j := Nat.pow_le_pow_right (by omega) (by omega)
      omega
  obtain ⟨hke, hk1, hk31, hk63⟩ := hklog
  have hpush : benfPush m x =
      ((m * 2 ^ 31 + x % 2 ^ 31) * 2 ^ (k - 31) + x % 2 ^ k / 2 ^ 31) * 2 ^ 5 +
        (k - 31) := by
    simp [benfPush, benfPushF, uniformPush_eq, hk]
  have hhi_lt : x % 2 ^ k / 2 ^ 31 < 2 ^ (k - 31) := by
    rw [Nat.div_lt_iff_lt_mul (by norm_num), ← pow_add]
    have hke' : k - 31 + 31 = k := by omega
    rw [hke']
    exact Nat.mod_lt x (Nat.pos_pow_of_pos k (by omega))
  have hlo_lt : x % 2 ^ 31 < 2 ^ 31 := Nat.mod_lt x (by norm_num)
  simp only [benfPopT, hpush]
  have e1 : (((m * 2 ^ 31 + x % 2 ^ 31) * 2 ^ (k - 31) + x % 2 ^ k / 2 ^ 31) *
      2 ^ 5 + (k - 31)) % 2 ^ 5 = k - 31 := by
    rw [show ((m * 2 ^ 31 + x % 2 ^ 31) * 2 ^ (k - 31) + x % 2 ^ k / 2 ^ 31) *
        2 ^ 5 + (k - 31) = (k - 31) + 2 ^ 5 *
        ((m * 2 ^ 31 + x % 2 ^ 31) * 2 ^ (k - 31) + x % 2 ^ k / 2 ^ 31) by ring,
      Nat.add_mul_mod_self_left, Nat.mod_eq_of_lt (by omega)]
  have e2 : (((m * 2 ^ 31 + x % 2 ^ 31) * 2 ^ (k - 31) + x % 2 ^ k / 2 ^ 31) *
      2 ^ 5 + (k - 31)) / 2 ^ 5 =
      (m * 2 ^ 31 + x % 2 ^ 31) * 2 ^ (k - 31) + x % 2 ^ k / 2 ^ 31 := by
    rw [show ((m * 2 ^ 31 + x % 2 ^ 31) * 2 ^ (k - 31) + x % 2 ^ k / 2 ^ 31) *
        2 ^ 5 + (k - 31) = 2 ^ 5 *
        ((m * 2 ^ 31 + x % 2 ^ 31) * 2 ^ (k - 31) + x % 2 ^ k / 2 ^ 31) +
        (k - 31) by ring,
      Nat.mul_add_div (by norm_num),
      Nat.div_eq_of_lt (show k - 31 < 2 ^ 5 by omega), Nat.add_zero]
  rw [e1, e2]
  have e3 : ((m * 2 ^ 31 + x % 2 ^ 31) * 2 ^ (k - 31) + x % 2 ^ k / 2 ^ 31) %
      2 ^ (k - 31) = x % 2 ^ k / 2 ^ 31 := by
    rw [show (m * 2 ^ 31 + x % 2 ^ 31) * 2 ^ (k - 31) + x % 2 ^ k / 2 ^ 31 =
      x % 2 ^ k / 2 ^ 31 + 2 ^ (k - 31) * (m * 2 ^ 31 + x % 2 ^ 31) by ring,
      Nat.add_mul_mod_self_left, Nat.mod_eq_of_lt hhi_lt]
  have e4 : ((m * 2 ^ 31 + x % 2 ^ 31) * 2 ^ (k - 31) + x % 2 ^ k / 2 ^ 31) /
      2 ^ (k - 31) = m * 2 ^ 31 + x % 2 ^ 31 := by
    rw [show (m * 2 ^ 31 + x % 2 ^ 31) * 2 ^ (k - 31) + x % 2 ^ k / 2 ^ 31 =
      2 ^ (k - 31) * (m * 2 ^ 31 + x % 2 ^ 31) + x % 2 ^ k / 2 ^ 31 by ring,
      Nat.mul_add_div (Nat.pos_pow_of_pos _ (by omega)),
      Nat.div_eq_of_lt hhi_lt, Nat.add_zero]
  rw [e3, e4]
  have e5 : (m * 2 ^ 31 + x % 2 ^ 31) % 2 ^ 31 = x % 2 ^ 31 := by
    rw [show m * 2 ^ 31 + x % 2 ^ 31 = x % 2 ^ 31 + 2 ^ 31 * m by ring,
      Nat.add_mul_mod_self_left, Nat.mod_eq_of_lt hlo_lt]
  have e6 : (m * 2 ^ 31 + x % 2 ^ 31) / 2 ^ 31 = m := by
    rw [show m * 2 ^ 31 + x % 2 ^ 31 = 2 ^ 31 * m + x % 2 ^ 31 by ring,
      Nat.mul_add_div (by norm_num), Nat.div_eq_of_lt hlo_lt, Nat.add_zero]
  rw [e5, e6]
  have e7 : k - 31 + 31 = k := by omega
  rw [e7]
  have e8 : x % 2 ^ k / 2 ^ 31 * 2 ^ 31 + x % 2 ^ 31 = x % 2 ^ k := by
    have hmm : x % 2 ^ k % 2 ^ 31 = x % 2 ^ 31 :=
      Nat.mod_mod_of_dvd x (pow_dvd_pow 2 hk31)
    have := Nat.div_add_mod (x % 2 ^ k) (2 ^ 31)
    omega
  have e9 : 2 ^ k + x % 2 ^ k = x := by
    have hdiv1 : x / 2 ^ k = 1 := by
      apply Nat.div_eq_of_lt_le
      · omega
      · have : (1 + 1) * 2 ^ k = 2 ^ (k + 1) := by rw [pow_succ]; ring
        omega
    have := Nat.div_add_mod x (2 ^ k)
    rw [hdiv1] at this
    omega
  have efin : 2 ^ k + x % 2 ^ k / 2 ^ 31 * 2 ^ 31 + x % 2 ^ 31 = x := by omega
  rw [efin]

/-- Benford64 round-trip through the Option-valued pop, at the exact
leading-bit index (the idealized intent, not the float64 realization). -/
theorem benfPop_benfPush (m x : ℕ) (h1 : 2 ^ 31 ≤ x) (h2 : x < 2 ^ 63) :
    benfPop (benfPush m x) = some (m, x) := by
  rw [benfPop_eq, benfPopT_benfPush m x h1 h2]

/-- The word reconstructed by a Benford64 pop always lies in the stated
domain between 2 ^ 31 and 2 ^ 63. -/
theorem benfPopT_snd_bounds (m : ℕ) :
    2 ^ 31 ≤ (benfPopT m).2 ∧ (benfPopT m).2 < 2 ^ 63 := by
  set len := m % 2 ^ 5 with hlen
  set m1 := m / 2 ^ 5 with hm1
  set hi := m1 % 2 ^ len with hhi
  set m2 := m1 / 2 ^ len with hm2
  set lo := m2 % 2 ^ 31 with hlo
  have hlen32 : len < 2 ^ 5 := Nat.mod_lt m (by norm_num)
  have hhi_lt : hi < 2 ^ len := Nat.mod_lt m1 (Nat.pos_pow_of_pos len (by omega))
  have hlo_lt : lo < 2 ^ 31 := Nat.mod_lt m2 (by norm_num)
  have hsnd : (benfPopT m).2 = 2 ^ (len + 31) + hi * 2 ^ 31 + lo := rfl
  rw [hsnd]
  constructor
  · have : (2 : ℕ) ^ 31 ≤ 2 ^ (len + 31) :=
      Nat.pow_le_pow_right (by omega) (by omega)
    omega
  · have h1 : hi * 2 ^ 31 ≤ (2 ^ len - 1) * 2 ^ 31 :=
      Nat.mul_le_mul_right _ (by omega)
    have h2 : (2 ^ len - 1) * 2 ^ 31 = 2 ^ (len + 31) - 2 ^ 31 := by
      rw [Nat.sub_mul, one_mul, pow_add]
    have h3 : (2 : ℕ) ^ 31 ≤ 2 ^ (len + 31) :=
      Nat.pow_le_pow_right (by omega) (by omega)
    have h4 : 2 ^ (len + 31) + 2 ^ (len + 31) ≤ 2 ^ 63 := by
      have : (2 : ℕ) ^ (len + 31 + 1) ≤ 2 ^ 63 :=
        Nat.pow_le_pow_right (by omega) (by omega)
      rw [pow_succ] at this
      omega
    omega

/-- Re-coding the two components produced by a pop restores the state for
any computed-length function that is exact on the Benford64 domain: the
reconstructed word is back in that domain, where an exact length makes the
parameterized push agree with the idealized one. -/
theorem benfPushF_benfPopT (xlenF : ℕ → ℕ)
    (hex : ∀ x, 2 ^ 31 ≤ x → x < 2 ^ 63 → xlenF x = ilog2 x) (m : ℕ) :
    benfPushF xlenF (benfPopT m).1 (benfPopT m).2 = m := by
  have hb := benfPopT_snd_bounds m
  have hxf : xlenF (benfPopT m).2 = ilog2 (benfPopT m).2 := hex _ hb.1 hb.2
  have hagree : benfPushF xlenF (benfPopT m).1 (benfPopT m).2 =
      benfPush (benfPopT m).1 (benfPopT m).2 := by
    simp only [benfPush, benfPushF, hxf]
  rw [hagree, benfPush_benfPopT]

/-- Benford64 pop applied to a message of the layered push form: the pop
reads the 5-bit length delta, the high bits at that width and the low 31
bits, and reconstructs their disjoint-bit sum.  This half of the codec does
not involve the length computation and is faithful unconditionally. -/
theorem benfPop_layered (m3 len hi lo : ℕ) (hlen : len < 2 ^ 5)
    (hhi : hi < 2 ^ len) (hlo : lo < 2 ^ 31) :
    benfPop (((m3 * 2 ^ 31 + lo) * 2 ^ len + hi) * 2 ^ 5 + len) =
      some (m3, 2 ^ (len + 31) + hi * 2 ^ 31 + lo) := by
  rw [benfPop_eq]
  have e1 : (((m3 * 2 ^ 31 + lo) * 2 ^ len + hi) * 2 ^ 5 + len) % 2 ^ 5 =
      len := by
    rw [show ((m3 * 2 ^ 31 + lo) * 2 ^ len + hi) * 2 ^ 5 + len =
      len + 2 ^ 5 * ((m3 * 2 ^ 31 + lo) * 2 ^ len + hi) by ring,
      Nat.add_mul_mod_self_left, Nat.mod_eq_of_lt hlen]
  have e2 : (((m3 * 2 ^ 31 + lo) * 2 ^ len + hi) * 2 ^ 5 + len) / 2 ^ 5 =
      (m3 * 2 ^ 31 + lo) * 2 ^ len + hi := by
    rw [show ((m3 * 2 ^ 31 + lo) * 2 ^ len + hi) * 2 ^ 5 + len =
      2 ^ 5 * ((m3 * 2 ^ 31 + lo) * 2 ^ len + hi) + len by ring,
      Nat.mul_add_div (by norm_num), Nat.div_eq_of_lt hlen, Nat.add_zero]
  have e3 : ((m3 * 2 ^ 31 + lo) * 2 ^ len + hi) % 2 ^ len = hi := by
    rw [show (m3 * 2 ^ 31 + lo) * 2 ^ len + hi =
      hi + 2 ^ len * (m3 * 2 ^ 31 + lo) by ring,
      Nat.add_mul_mod_self_left, Nat.mod_eq_of_lt hhi]
  have e4 : ((m3 * 2 ^ 31 + lo) * 2 ^ len + hi) / 2 ^ len =
      m3 * 2 ^ 31 + lo := by
    rw [show (m3 * 2 ^ 31 + lo) * 2 ^ len + hi =
      2 ^ len * (m3 * 2 ^ 31 + lo) + hi by ring,
      Nat.mul_add_div (Nat.pos_pow_of_pos _ (by omega)),
      Nat.div_eq_of_lt hhi, Nat.add_zero]
  have e5 : (m3 * 2 ^ 31 + lo) % 2 ^ 31 = lo := by
    rw [show m3 * 2 ^ 31 + lo = lo + 2 ^ 31 * m3 by ring,
      Nat.add_mul_mod_self_left, Nat.mod_eq_of_lt hlo]
  have e6 : (m3 * 2 ^ 31 + lo) / 2 ^ 31 = m3 := by
    rw [show m3 * 2 ^ 31 + lo = 2 ^ 31 * m3 + lo by ring,
      Nat.mul_add_div (by norm_num), Nat.div_eq_of_lt hlo, Nat.add_zero]
  simp only [benfPopT, e1, e2, e3, e4, e5, e6]

theorem popLanes_eq (h : List ℕ) : popLanes h = some (h.map benfPopT) := by
  induction h with
  | nil => rfl
  | cons a rest ih => simp [popLanes, benfPop_eq, ih]

theorem benfPopV_eq {τ : Type} (h : List ℕ) (t : τ) :
    benfPopV (h, t) = some ((h.map (fun a => (benfPopT a).1), t),
      h.map (fun a => (benfPopT a).2)) := by
  simp [benfPopV, popLanes_eq, List.map_map, Function.comp]

theorem zipWith_map_self {α β γ δ : Type} (f : β → γ → δ) (g : α → β) (h : α → γ) :
    ∀ l : List α, List.zipWith f (l.map g) (l.map h) = l.map fun a => f (g a) (h a) := by
  intro l
  induction l with
  | nil => rfl
  | cons a rest ih => simp [ih]

theorem growStep_eq {τ : Type} (d : ℕ) (G : List ℕ) (t : τ) :
    growStep d (G, t) =
      some (((G.take d).map (fun a => (benfPopT a).1) ++ G.drop d)
        ++ (G.take d).map (fun a => (benfPopT a).2), t) := by
  simp [growStep, foldPop, substackPop, benfPopV_eq]

theorem shrinkStep_growStep {τ : Type} (xlenF : ℕ → ℕ)
    (hex : ∀ x, 2 ^ 31 ≤ x → x < 2 ^ 63 → xlenF x = ilog2 x)
    (d : ℕ) (G : List ℕ) (t : τ) (hd : d ≤ G.length) :
    shrinkStep xlenF G.length d
      ((((G.take d).map (fun a => (benfPopT a).1) ++ G.drop d)
        ++ (G.take d).map (fun a => (benfPopT a).2)), t) = (G, t) := by
  have hA : ((G.take d).map (fun a => (benfPopT a).1)).length = d := by
    rw [List.length_map]; exact List.length_take_of_le hd
  have hAB : ((G.take d).map (fun a => (benfPopT a).1) ++ G.drop d).length =
      G.length := by
    rw [List.length_append, hA, List.length_drop]; omega
  simp only [shrinkStep]
  rw [List.take_left' hAB, List.drop_left' hAB]
  simp only [foldPush, substackPush, benfPushV, List.drop_zero, List.take_zero,
    List.nil_append, Nat.zero_add]
  rw [List.take_left' hA, List.drop_left' hA]
  rw [zipWith_map_self]
  have hmapid : (G.take d).map
      (fun a => benfPushF xlenF (benfPopT a).1 (benfPopT a).2) = G.take d := by
    rw [List.map_congr_left (fun a _ => benfPushF_benfPopT xlenF hex a),
      List.map_id']
  rw [hmapid, List.take_append_drop]

theorem shrinkStep_len {τ : Type} (xlenF : ℕ → ℕ) (s d : ℕ) (msg : List ℕ × τ)
    (hds : d ≤ s) (hlen : msg.1.length = s + d) :
    (shrinkStep xlenF s d msg).1.length = s ∧
      (shrinkStep xlenF s d msg).2 = msg.2 := by
  simp only [shrinkStep, foldPush, substackPush, benfPushV, List.drop_zero,
    List.take_zero, List.nil_append, Nat.zero_add]
  refine ⟨?_, by trivial⟩
  simp only [List.length_append, List.length_zipWith, List.take_take,
    List.length_take, List.length_drop]
  omega

theorem shrinkLoop_append {τ : Type} (xlenF : ℕ → ℕ) (xs ys : List (ℕ × ℕ))
    (msg : List ℕ × τ) :
    shrinkLoop xlenF (xs ++ ys) msg = shrinkLoop xlenF ys (shrinkLoop xlenF xs msg) := by
  induction xs generalizing msg with
  | nil => rfl
  | cons p rest ih => simp [shrinkLoop, ih]

theorem growLoop_spec {τ : Type} (xlenF : ℕ → ℕ) :
    ∀ (sizes : List ℕ) (G : List ℕ) (t : τ),
      sizes.Chain' (fun a b => a ≤ b ∧ b ≤ 2 * a) → sizes.head? = some G.length →
      ∃ res : List ℕ × τ, growLoop (sizeDiffs sizes) (G, t) = some res ∧
        res.2 = t ∧ sizes.getLast? = some res.1.length ∧
        ((∀ x, 2 ^ 31 ≤ x → x < 2 ^ 63 → xlenF x = ilog2 x) →
          shrinkLoop xlenF ((sizes.dropLast.zip (sizeDiffs sizes)).reverse) res =
            (G, t)) := by
  intro sizes
  induction sizes with
  | nil => intro G t _ hh; simp at hh
  | cons s0 rest ih =>
    intro G t hchain hh
    have hs0 : s0 = G.length := by simpa using hh
    cases rest with
    | nil =>
      refine ⟨(G, t), rfl, rfl, by simpa using hs0, fun _ => rfl⟩
    | cons s1 rest' =>
      have hrel : s0 ≤ s1 ∧ s1 ≤ 2 * s0 := (List.chain'_cons.mp hchain).1
      have hchain' : List.Chain' (fun a b => a ≤ b ∧ b ≤ 2 * a) (s1 :: rest') :=
        (List.chain'_cons.mp hchain).2
      have hd : s1 - s0 ≤ G.length := by omega
      set d := s1 - s0 with hdd
      set A := (G.take d).map (fun a => (benfPopT a).1) with hA
      set B := G.drop d with hB
      set E := (G.take d).map (fun a => (benfPopT a).2) with hE
      have hg := growStep_eq d G t
      have hlenAB : ((A ++ B) ++ E).length = s1 := by
        rw [List.length_append, List.length_append, hA, hB, hE,
          List.length_map, List.length_map, List.length_take_of_le hd,
          List.length_drop]
        omega
      have hdiffs : sizeDiffs (s0 :: s1 :: rest') =
          d :: sizeDiffs (s1 :: rest') := rfl
      obtain ⟨res, hres, hrt, hrl, hrs⟩ :=
        ih ((A ++ B) ++ E) t hchain' (by rw [hlenAB]; rfl)
      refine ⟨res, ?_, hrt, ?_, ?_⟩
      · rw [hdiffs]
        simp only [growLoop, hg, Option.some_bind]
        exact hres
      · rw [List.getLast?_cons_cons]
        exact hrl
      · intro hex
        have hdrop : (s0 :: s1 :: rest').dropLast = s0 :: (s1 :: rest').dropLast := by
          simp
        rw [hdiffs, hdrop, List.zip_cons_cons, List.reverse_cons,
          shrinkLoop_append, hrs hex]
        show shrinkLoop xlenF [(s0, d)] ((A ++ B) ++ E, t) = (G, t)
        simp only [shrinkLoop]
        rw [hs0]
        exact shrinkStep_growStep xlenF hex d G t hd

theorem shrinkLoop_spec {τ : Type} (xlenF : ℕ → ℕ) :
    ∀ (sizes : List ℕ) (msg : List ℕ × τ) (s0 : ℕ),
      sizes.Chain' (fun a b => a ≤ b ∧ b ≤ 2 * a) → sizes.head? = some s0 →
      sizes.getLast? = some msg.1.length →
      (shrinkLoop xlenF ((sizes.dropLast.zip (sizeDiffs sizes)).reverse)
        msg).1.length = s0 ∧
      (shrinkLoop xlenF ((sizes.dropLast.zip (sizeDiffs sizes)).reverse)
        msg).2 = msg.2 := by
  intro sizes
  induction sizes with
  | nil => intro msg s0 _ hh _; simp at hh
  | cons sa rest ih =>
    intro msg s0 hchain hh hl
    have hsa : sa = s0 := by simpa using hh
    cases rest with
    | nil =>
      have hml : sa = msg.1.length := by simpa using hl
      refine ⟨?_, rfl⟩
      show msg.1.length = s0
      omega
    | cons sb rest' =>
      have hrel : sa ≤ sb ∧ sb ≤ 2 * sa := (List.chain'_cons.mp hchain).1
      have hchain' : List.Chain' (fun a b => a ≤ b ∧ b ≤ 2 * a) (sb :: rest') :=
        (List.chain'_cons.mp hchain).2
      have hl' : (sb :: rest').getLast? = some msg.1.length := by
        rw [← List.getLast?_cons_cons (a := sa)]; exact hl
      obtain ⟨hil, hit⟩ := ih msg sb hchain' rfl hl'
      have hdiffs : sizeDiffs (sa :: sb :: rest') =
          (sb - sa) :: sizeDiffs (sb :: rest') := rfl
      have hdrop : (sa :: sb :: rest').dropLast = sa :: (sb :: rest').dropLast := by
        simp
      rw [hdiffs, hdrop, List.zip_cons_cons, List.reverse_cons,
        shrinkLoop_append]
      set M := shrinkLoop xlenF (((sb :: rest').dropLast.zip
        (sizeDiffs (sb :: rest'))).reverse) msg with hM
      have hstep := shrinkStep_len xlenF sa (sb - sa) M (by omega) (by omega)
      constructor
      · show (shrinkLoop xlenF [(sa, sb - sa)] M).1.length = s0
        simp only [shrinkLoop]
        omega
      · show (shrinkLoop xlenF [(sa, sb - sa)] M).2 = msg.2
        simp only [shrinkLoop]
        rw [hstep.2, hit]

/-- With a start size of zero and a positive target the _fold_sizes loop is
stuck (doubling zero stays zero), so no fuel suffices. -/
theorem foldSizesF_zero (big : ℕ) (hb : 0 < big) :
    ∀ fuel, foldSizesF fuel 0 big = none := by
  intro fuel
  induction fuel with
  | zero => rfl
  | succ f ih =>
    have hne : (0 : ℕ) ≠ big := by omega
    simp only [foldSizesF, if_neg hne]
    have : (if 2 * 0 ≤ big then 2 * 0 else big) = 0 := by
      simp
    rw [this, ih]
    rfl

theorem foldSizesF_master (big : ℕ) :
    ∀ (d small : ℕ), 1 ≤ small → small ≤ big → big - small = d →
      ∃ sizes : List ℕ,
        (∀ fuel, d < fuel → foldSizesF fuel small big = some sizes) ∧
        sizes.head? = some small ∧ sizes.getLast? = some big ∧
        sizes.Chain' (fun a b => b = min (2 * a) big) ∧
        sizes.Chain' (fun a b => a < b ∧ b ≤ 2 * a) := by
  intro d
  induction d using Nat.strong_induction_on with
  | _ d ih =>
    intro small h1 h2 hd
    by_cases heq : small = big
    · refine ⟨[small], ?_, rfl, ?_, List.chain'_singleton small,
        List.chain'_singleton small⟩
      · intro fuel hfuel
        match fuel, hfuel with
        | f + 1, _ => simp [foldSizesF, heq]
      · simp [heq]
    · have hlt : small < big := by omega
      set next := if 2 * small ≤ big then 2 * small else big with hnext
      have hnprops : small < next ∧ next ≤ big ∧ next ≤ 2 * small ∧ 1 ≤ next := by
        rw [hnext]; split <;> omega
      have hd' : big - next < d := by omega
      obtain ⟨sizes', hfuel', hhead', hlast', hch1', hch2'⟩ :=
        ih (big - next) hd' next (by omega) (by omega) rfl
      match sizes', hhead' with
      | n0 :: rest', hhead' =>
        have hn0 : n0 = next := by simpa using hhead'
        refine ⟨small :: n0 :: rest', ?_, rfl, ?_, ?_, ?_⟩
        · intro fuel hfuel
          match fuel, hfuel with
          | f + 1, hfuel =>
            have hf : big - next < f := by omega
            simp only [foldSizesF, if_neg heq]
            rw [← hnext, hfuel' f hf]
            rfl
        · rw [List.getLast?_cons_cons]
          exact hlast'
        · rw [List.chain'_cons]
          refine ⟨?_, hch1'⟩
          rw [hn0, hnext, Nat.min_def]
        · rw [List.chain'_cons]
          exact ⟨by omega, hch2'⟩

theorem resizeHead_shrink_eq {τ : Type} (xlenF : ℕ → ℕ) (msg : List ℕ × τ)
    (size : ℕ) (h : size < msg.1.length) (sizes : List ℕ)
    (hs : foldSizesF (msg.1.length + 1 - size) size msg.1.length = some sizes) :
    resizeHead xlenF msg size =
      some (shrinkLoop xlenF ((sizes.dropLast.zip (sizeDiffs sizes)).reverse)
        msg) := by
  simp only [resizeHead]
  rw [show min size msg.1.length = size by omega,
    show max size msg.1.length = msg.1.length by omega, hs]
  simp [h]

theorem resizeHead_grow_eq {τ : Type} (xlenF : ℕ → ℕ) (msg : List ℕ × τ)
    (size : ℕ) (h : msg.1.length < size) (sizes : List ℕ)
    (hs : foldSizesF (size + 1 - msg.1.length) msg.1.length size = some sizes) :
    resizeHead xlenF msg size = growLoop (sizeDiffs sizes) msg := by
  simp only [resizeHead]
  rw [show min size msg.1.length = msg.1.length by omega,
    show max size msg.1.length = size by omega, hs]
  have h2 : ¬ size < msg.1.length := by omega
  simp [h, h2]

theorem resizeHead_self_eq {τ : Type} (xlenF : ℕ → ℕ) (msg : List ℕ × τ)
    (size : ℕ) (h : size = msg.1.length) : resizeHead xlenF msg size = some msg := by
  simp only [resizeHead]
  rw [show min size msg.1.length = size by omega,
    show max size msg.1.length = size by omega,
    show size + 1 - size = 1 by omega]
  have h1 : foldSizesF 1 size size = some [size] := by simp [foldSizesF]
  rw [h1]
  have h2 : ¬ size < msg.1.length := by omega
  have h3 : ¬ msg.1.length < size := by omega
  simp [h2, h3]

/-- C6 (amended): for every message whose head is a 1-d array of size a >= 1,
every target size b >= 1, and whatever integer lengths the Benford64 length
computation produces, reshaping the head to (b,) and back to (a,) yields a
message whose head again has size a; and when b >= a the grow-then-shrink
cycle returns exactly the original message provided the computed length of
every word the grow steps pop is its exact leading-bit index.  (Sizes must be
positive: from size zero the folding schedule never terminates; and the
proviso is needed because the float64 np.log2 of the source overestimates
the index for words just below large powers of two, the code bug recorded
under C3, which makes the shrink leg miscode such popped words.) -/
theorem c6_reshape_roundtrip {τ : Type} (xlenF : ℕ → ℕ) (head : List ℕ) (t : τ)
    (a b : ℕ) (ha : head.length = a) (h1 : 1 ≤ a) (hb : 1 ≤ b) :
    ∃ mid : List ℕ × τ, reshapeHead xlenF (head, t) b = some mid ∧
      mid.1.length = b ∧ mid.2 = t ∧
      ∃ fin : List ℕ × τ, reshapeHead xlenF mid a = some fin ∧
        fin.1.length = a ∧
        ((∀ x, 2 ^ 31 ≤ x → x < 2 ^ 63 → xlenF x = ilog2 x) → a ≤ b →
          fin = (head, t)) := by
  rcases lt_trichotomy a b with hab | hab | hab
  · -- grow to b, then shrink back
    obtain ⟨sizes, hfuelS, hheadS, hlastS, _, hch2⟩ :=
      foldSizesF_master b (b - a) a h1 (by omega) rfl
    have hfoldEq : foldSizesF (b + 1 - a) a b = some sizes :=
      hfuelS (b + 1 - a) (by omega)
    have hchain : sizes.Chain' (fun u v => u ≤ v ∧ v ≤ 2 * u) :=
      List.Chain'.imp (fun u v hr => ⟨Nat.le_of_lt hr.1, hr.2⟩) hch2
    obtain ⟨res, hgrow, hrt, hrl, hrs⟩ :=
      growLoop_spec xlenF sizes head t hchain (by rw [hheadS, ha])
    have hreslen : res.1.length = b := by
      rw [hlastS] at hrl
      exact (Option.some.inj hrl).symm
    have hfold1 : foldSizesF (b + 1 - head.length) head.length b = some sizes := by
      rw [ha]; exact hfoldEq
    have hfirst : reshapeHead xlenF (head, t) b = some res := by
      rw [reshapeHead, resizeHead_grow_eq xlenF (head, t) b
        (by simpa [ha] using hab) sizes hfold1]
      exact hgrow
    refine ⟨res, hfirst, hreslen, hrt, ?_⟩
    have hfold2 : foldSizesF (res.1.length + 1 - a) a res.1.length = some sizes := by
      rw [hreslen]; exact hfoldEq
    have hsecond : reshapeHead xlenF res a =
        some (shrinkLoop xlenF ((sizes.dropLast.zip (sizeDiffs sizes)).reverse)
          res) := by
      rw [reshapeHead, resizeHead_shrink_eq xlenF res a (by omega) sizes hfold2]
    obtain ⟨hsl, _⟩ := shrinkLoop_spec xlenF sizes res a hchain
      (by rw [hheadS]) (by rw [hlastS, hreslen])
    refine ⟨shrinkLoop xlenF ((sizes.dropLast.zip (sizeDiffs sizes)).reverse)
      res, hsecond, hsl, fun hex _ => ?_⟩
    rw [hrs hex]
  · -- equal sizes: both reshapes are the identity
    refine ⟨(head, t), ?_, by simpa using (by omega : head.length = b), rfl,
      (head, t), ?_, by simpa using ha, fun _ _ => rfl⟩
    · exact resizeHead_self_eq xlenF (head, t) b (by simp [ha, hab])
    · exact resizeHead_self_eq xlenF (head, t) a (by simp [ha])
  · -- shrink to b, then grow back to a
    obtain ⟨sizes, hfuelS, hheadS, hlastS, _, hch2⟩ :=
      foldSizesF_master a (a - b) b hb (by omega) rfl
    have hfoldEq : foldSizesF (a + 1 - b) b a = some sizes :=
      hfuelS (a + 1 - b) (by omega)
    have hchain : sizes.Chain' (fun u v => u ≤ v ∧ v ≤ 2 * u) :=
      List.Chain'.imp (fun u v hr => ⟨Nat.le_of_lt hr.1, hr.2⟩) hch2
    have hfold1 : foldSizesF (head.length + 1 - b) b head.length = some sizes := by
      rw [ha]; exact hfoldEq
    obtain ⟨hl1, hl2⟩ := shrinkLoop_spec xlenF sizes (head, t) b hchain hheadS
      (by simpa [ha] using hlastS.symm ▸ rfl)
    set mid := shrinkLoop xlenF ((sizes.dropLast.zip (sizeDiffs sizes)).reverse)
      (head, t) with hmid
    have hfirst : reshapeHead xlenF (head, t) b = some mid := by
      rw [reshapeHead, resizeHead_shrink_eq xlenF (head, t) b
        (by simpa [ha] using hab) sizes hfold1]
    obtain ⟨res, hgrow, hrt, hrl, _⟩ :=
      growLoop_spec xlenF sizes mid.1 mid.2 hchain (by rw [hheadS, hl1])
    have hreslen : res.1.length = a := by
      rw [hlastS] at hrl
      exact (Option.some.inj hrl).symm
    have hfold2 : foldSizesF (a + 1 - mid.1.length) mid.1.length a = some sizes := by
      rw [hl1]; exact hfoldEq
    refine ⟨mid, hfirst, hl1, hl2, res, ?_, hreslen,
      fun _ hle => absurd hle (by omega)⟩
    rw [reshapeHead, resizeHead_grow_eq xlenF mid a (by omega) sizes hfold2]
    exact hgrow

/-- C6 counterexample: the claim quantifies over every target size b, but at
b = 0 (head size 1) the folding schedule of _fold_sizes never terminates
(doubling zero stays zero), so for every computed-length function the
grow-then-shrink pipeline produces no message at all, let alone one of the
original shape; foldSizesTerminates records that no fuel bound makes the
loop finish. -/
theorem c6_counterexample :
    (∀ xlenF : ℕ → ℕ,
      (reshapeHead xlenF (([5], 0) : List ℕ × ℕ) 0).bind
        (fun mid => reshapeHead xlenF mid 1) = none) ∧
      ¬ foldSizesTerminates 0 1 := by
  constructor
  · intro xlenF
    rfl
  · rintro ⟨fuel, hf⟩
    rw [foldSizesF_zero 1 (by omega) fuel] at hf
    simp at hf

/-- Witness for c6_reshape_roundtrip at the exact leading-bit index, head
[5, 6], tail 0, sizes 2 and 3 (the exactness proviso holds by definition). -/
theorem c6_witness :
    ∃ mid : List ℕ × ℕ, reshapeHead ilog2 (([5, 6], 0) : List ℕ × ℕ) 3 =
        some mid ∧ mid.1.length = 3 ∧ mid.2 = 0 ∧
      ∃ fin : List ℕ × ℕ, reshapeHead ilog2 mid 2 = some fin ∧
        fin.1.length = 2 ∧
        ((∀ x, 2 ^ 31 ≤ x → x < 2 ^ 63 → ilog2 x = ilog2 x) → 2 ≤ 3 →
          fin = ([5, 6], 0)) :=
  c6_reshape_roundtrip ilog2 [5, 6] 0 2 3 rfl (by decide) (by decide)

/-- C8: for all 1 <= small <= big the _fold_sizes loop terminates and yields
the schedule that starts at small, steps by b = min (2 * a) big, ends at big
and is strictly increasing when small < big; hence the folding schedule of
_resize_head_1d / reshape_head is well-defined for every positive size. -/
theorem c8_fold_sizes (small big : ℕ) (h1 : 1 ≤ small) (h2 : small ≤ big) :
    ∃ sizes : List ℕ,
      (∀ fuel, big - small < fuel → foldSizesF fuel small big = some sizes) ∧
      foldSizesTerminates small big ∧
      sizes.head? = some small ∧ sizes.getLast? = some big ∧
      sizes.Chain' (fun u v => v = min (2 * u) big) ∧
      (small < big → sizes.Chain' (fun u v => u < v)) := by
  obtain ⟨sizes, hfuel, hhead, hlast, hch1, hch2⟩ :=
    foldSizesF_master big (big - small) small h1 h2 rfl
  refine ⟨sizes, hfuel, ⟨big - small + 1, ?_⟩, hhead, hlast, hch1,
    fun _ => List.Chain'.imp (fun u v hr => hr.1) hch2⟩
  rw [hfuel (big - small + 1) (by omega)]
  rfl

/-- Witness for c8_fold_sizes at small 1, big 5 (schedule 1, 2, 4, 5). -/
theorem c8_witness :
    ∃ sizes : List ℕ,
      (∀ fuel, 5 - 1 < fuel → foldSizesF fuel 1 5 = some sizes) ∧
      foldSizesTerminates 1 5 ∧
      sizes.head? = some 1 ∧ sizes.getLast? = some 5 ∧
      sizes.Chain' (fun u v => v = min (2 * u) 5) ∧
      (1 < 5 → sizes.Chain' (fun u v => u < v)) :=
  c8_fold_sizes 1 5 (by decide) (by decide)

theorem foldl_max_mem : ∀ (qs : List ℤ) (a : ℤ),
    qs.foldl max a = a ∨ qs.foldl max a ∈ qs := by
  intro qs
  induction qs with
  | nil => intro a; left; rfl
  | cons q rest ih =>
    intro a
    rcases ih (max a q) with h | h
    · rcases max_choice a q with hm | hm
      · left; rw [List.foldl_cons, h, hm]
      · right; rw [List.foldl_cons, h, hm]; exact List.mem_cons_self q rest
    · right; exact List.mem_cons_of_mem q h

theorem maxVal_mem (q : ℤ) (qs : List ℤ) : maxVal (q :: qs) ∈ q :: qs := by
  rcases foldl_max_mem qs q with h | h
  · rw [maxVal, h]; exact List.mem_cons_self q qs
  · exact List.mem_cons_of_mem q h

theorem bumpFirst_sum (v add : ℤ) :
    ∀ l : List ℤ, v ∈ l → (bumpFirst v add l).sum = l.sum + add := by
  intro l
  induction l with
  | nil => intro h; simp at h
  | cons q qs ih =>
    intro hmem
    by_cases hq : q = v
    · simp only [bumpFirst, if_pos hq, List.sum_cons]
      ring
    · have hv : v ∈ qs := by
        rcases List.mem_cons.mp hmem with h | h
        · exact absurd h.symm hq
        · exact h
      simp only [bumpFirst, if_neg hq, List.sum_cons, ih hv]
      ring

theorem bumpFirst_mem (v add x : ℤ) :
    ∀ l : List ℤ, x ∈ bumpFirst v add l → x ∈ l ∨ x = v + add := by
  intro l
  induction l with
  | nil => intro h; simp [bumpFirst] at h
  | cons q qs ih =>
    intro hmem
    by_cases hq : q = v
    · simp only [bumpFirst, if_pos hq] at hmem
      rcases List.mem_cons.mp hmem with h | h
      · right; rw [h, hq]
      · left; exact List.mem_cons_of_mem q h
    · simp only [bumpFirst, if_neg hq] at hmem
      rcases List.mem_cons.mp hmem with h | h
      · left; rw [h]; exact List.mem_cons_self q qs
      · rcases ih h with h2 | h2
        · left; exact List.mem_cons_of_mem q h2
        · right; exact h2

theorem fixZeros_pos (l : List ℤ) (hnn : ∀ q ∈ l, 0 ≤ q) :
    ∀ x ∈ fixZeros l, 1 ≤ x := by
  intro x hx
  obtain ⟨q, hq, hqx⟩ := List.mem_map.mp hx
  by_cases h0 : q = 0
  · rw [← hqx, if_pos h0]
  · rw [← hqx, if_neg h0]
    have := hnn q hq
    omega

theorem rebalance_spec (probs : List ℤ) (p : ℕ) (l : List ℤ)
    (hnn : ∀ q ∈ probs, 0 ≤ q) (h : rebalance probs p = some l) :
    l.sum = 2 ^ p ∧ ∀ x ∈ l, 1 ≤ x := by
  match probs, h with
  | q0 :: qs, h =>
    simp only [rebalance] at h
    by_cases hguard :
        maxVal (fixZeros (q0 :: qs)) +
          (2 ^ p - (fixZeros (q0 :: qs)).sum) ≤ 0
    · rw [if_pos hguard] at h
      exact absurd h (by simp)
    · rw [if_neg hguard] at h
      have hl : l = bumpFirst (maxVal (fixZeros (q0 :: qs)))
          (2 ^ p - (fixZeros (q0 :: qs)).sum) (fixZeros (q0 :: qs)) :=
        (Option.some.inj h).symm
      have hmx : maxVal (fixZeros (q0 :: qs)) ∈ fixZeros (q0 :: qs) := by
        have : fixZeros (q0 :: qs) =
            (if q0 = 0 then 1 else q0) :: fixZeros qs := rfl
        rw [this]
        exact this ▸ maxVal_mem _ _
      constructor
      · rw [hl, bumpFirst_sum _ _ _ hmx]
        ring
      · intro x hx
        rw [hl] at hx
        rcases bumpFirst_mem _ _ _ _ hx with h2 | h2
        · exact fixZeros_pos _ hnn x h2
        · omega

theorem cumFrom_head (acc : ℤ) (l : List ℤ) : (cumFrom acc l).head? = some acc := by
  cases l <;> rfl

theorem cumFrom_last : ∀ (l : List ℤ) (acc : ℤ),
    (cumFrom acc l).getLast? = some (acc + l.sum) := by
  intro l
  induction l with
  | nil => intro acc; simp [cumFrom]
  | cons q qs ih =>
    intro acc
    have hsh : ∃ z zs, cumFrom (acc + q) qs = z :: zs := by
      cases qs <;> exact ⟨_, _, rfl⟩
    obtain ⟨z, zs, hzs⟩ := hsh
    show (acc :: cumFrom (acc + q) qs).getLast? = some (acc + (q :: qs).sum)
    rw [hzs, List.getLast?_cons_cons, ← hzs, ih (acc + q), List.sum_cons]
    congr 1
    ring

theorem cumFrom_chain : ∀ (l : List ℤ) (acc : ℤ), (∀ x ∈ l, 1 ≤ x) →
    (cumFrom acc l).Chain' (fun u v => u + 1 ≤ v) := by
  intro l
  induction l with
  | nil => intro acc _; exact List.chain'_singleton acc
  | cons q qs ih =>
    intro acc hpos
    show ((acc :: cumFrom (acc + q) qs)).Chain' (fun u v => u + 1 ≤ v)
    rw [List.chain'_cons']
    constructor
    · intro y hy
      rw [cumFrom_head] at hy
      have : acc + q = y := by simpa using hy
      have hq := hpos q (List.mem_cons_self q qs)
      omega
    · exact ih (acc + q) fun x hx => hpos x (List.mem_cons_of_mem q hx)

/-- C2: for every nonnegative integer probability row and precision p at
which the rebalance assertion passes, the cumulative bucket table starts at
0, ends at 2 ^ p, and every adjacent gap is at least 1 (so it is
non-decreasing); equivalently, after zero-frequency correction the bucket
widths are all positive and still sum to exactly 2 ^ p. -/
theorem c2_cumulative_buckets (probs : List ℤ) (p : ℕ) (buckets : List ℤ)
    (hnn : ∀ q ∈ probs, 0 ≤ q)
    (hsome : cumulativeBucketsFromProbs probs p = some buckets) :
    buckets.head? = some 0 ∧ buckets.getLast? = some (2 ^ p) ∧
      buckets.Chain' (fun u v => u + 1 ≤ v) ∧
      ∀ l, rebalance probs p = some l → l.sum = 2 ^ p ∧ ∀ x ∈ l, 1 ≤ x := by
  simp only [cumulativeBucketsFromProbs, Option.map_eq_some'] at hsome
  obtain ⟨l, hreb, hbuck⟩ := hsome
  obtain ⟨hsum, hpos⟩ := rebalance_spec probs p l hnn hreb
  refine ⟨?_, ?_, ?_, fun l2 hl2 => rebalance_spec probs p l2 hnn hl2⟩
  · rw [← hbuck]; exact cumFrom_head 0 l
  · rw [← hbuck, cumFrom_last l 0, zero_add, hsum]
  · rw [← hbuck]; exact cumFrom_chain l 0 hpos

/-- Witness for c2_cumulative_buckets at probs [3, 0, 2] and precision 3:
the zero bucket is lifted to width 1, the deficit 2 is absorbed by the
largest bucket, and the table is [0, 5, 6, 8]. -/
theorem c2_witness :
    ([0, 5, 6, 8] : List ℤ).head? = some 0 ∧
      ([0, 5, 6, 8] : List ℤ).getLast? = some (2 ^ 3) ∧
      ([0, 5, 6, 8] : List ℤ).Chain' (fun u v => u + 1 ≤ v) ∧
      ∀ l, rebalance [3, 0, 2] 3 = some l → l.sum = 2 ^ 3 ∧ ∀ x ∈ l, 1 ≤ x :=
  c2_cumulative_buckets [3, 0, 2] 3 [0, 5, 6, 8] (by decide) (by decide)

/-- C1: for codecs built by the algebra, here NonUniform and repeat over
NonUniform, pop of push returns exactly the original message and symbol,
also under repeated application through repeat, provided the statfun pair
used by push and pop agrees exactly and satisfies the interval invariants
on the valid symbols. -/
theorem c1_roundtrip {S : Type} (enc : S → ℕ × ℕ) (dec : ℕ → S) (p : ℕ)
    (valid : S → Prop)
    (hinv : ∀ s, valid s → 0 < (enc s).2 ∧ (enc s).1 + (enc s).2 ≤ 2 ^ p)
    (hagree : ∀ s cf, valid s → (enc s).1 ≤ cf →
      cf < (enc s).1 + (enc s).2 → dec cf = s) :
    (∀ (m : ℕ) (s : S), valid s →
      nonUniformPop enc dec p (nonUniformPush enc p m s) = some (m, s)) ∧
    (∀ (n m : ℕ) (syms : List S), syms.length = n → (∀ s ∈ syms, valid s) →
      (repeatPush (nonUniformPush enc p) n m syms).bind
        (repeatPop (nonUniformPop enc dec p) n) = some (m, syms)) := by
  have hrt : ∀ (m : ℕ) (s : S), valid s →
      nonUniformPop enc dec p (nonUniformPush enc p m s) = some (m, s) :=
    fun m s hs => nonUniform_roundtrip enc dec p m s (hinv s hs).1 (hinv s hs).2
      (fun cf ha hb => hagree s cf hs ha hb)
  refine ⟨hrt, ?_⟩
  intro n m syms hlen hv
  subst hlen
  rw [repeatPush, if_pos rfl, Option.some_bind]
  exact repeat_roundtrip _ _ valid hrt syms m hv

/-- Witness for c1_roundtrip: symbols below 2 with intervals of width 2 at
precision 2, message 5, sequence [0, 1] through repeat. -/
theorem c1_witness :
    (repeatPush (nonUniformPush (fun s => (2 * s, 2)) 2) 2 5 [0, 1]).bind
        (repeatPop (nonUniformPop (fun s => (2 * s, 2)) (fun cf => cf / 2) 2) 2)
      = some (5, [0, 1]) :=
  (c1_roundtrip (fun s => (2 * s, 2)) (fun cf => cf / 2) 2 (fun s => s < 2)
    (by
      intro s hs
      refine ⟨by norm_num, ?_⟩
      show 2 * s + 2 ≤ 2 ^ 2
      omega)
    (by
      intro s cf hs hle hlt
      have hle' : 2 * s ≤ cf := hle
      have hlt' : cf < 2 * s + 2 := hlt
      show cf / 2 = s
      omega)).2 2 5 [0, 1] rfl (by decide)

/-- C5: NonUniform pop computes cf from the primitive, decodes the symbol,
recomputes its interval, and fails (assertion, modelled as none) exactly
when start <= cf < start + freq does not hold; otherwise it returns the
finished message finish(start, freq) together with the decoded symbol. -/
theorem c5_pop_check {S : Type} (enc : S → ℕ × ℕ) (dec : ℕ → S) (p m : ℕ) :
    (nonUniformPop enc dec p m = none ↔
      ¬ ((enc (dec (vcf m p))).1 ≤ vcf m p ∧
        vcf m p < (enc (dec (vcf m p))).1 + (enc (dec (vcf m p))).2)) ∧
    ((enc (dec (vcf m p))).1 ≤ vcf m p ∧
        vcf m p < (enc (dec (vcf m p))).1 + (enc (dec (vcf m p))).2 →
      nonUniformPop enc dec p m =
        some (vfinish m (enc (dec (vcf m p))).1 (enc (dec (vcf m p))).2 p,
          dec (vcf m p))) := by
  constructor
  · simp only [nonUniformPop]
    split <;> simp_all
  · intro h
    simp only [nonUniformPop, if_pos h]

/-- Witness for c5_pop_check with the uniform statfuns at precision 2 and
message 5 (the interval check holds and pop succeeds). -/
theorem c5_witness :
    nonUniformPop uniformEnc uniformDec 2 5 =
      some (vfinish 5 (uniformEnc (uniformDec (vcf 5 2))).1
        (uniformEnc (uniformDec (vcf 5 2))).2 2, uniformDec (vcf 5 2)) :=
  (c5_pop_check uniformEnc uniformDec 2 5).2 (by decide)

theorem ilog2_bounds (x : ℕ) (h1 : 2 ^ 31 ≤ x) (h2 : x < 2 ^ 63) :
    2 ^ ilog2 x ≤ x ∧ x < 2 ^ (ilog2 x + 1) ∧ 31 ≤ ilog2 x ∧ ilog2 x < 63 := by
  have hx0 : x ≠ 0 := by positivity
  have hex : ∃ j, j < 64 ∧ 2 ^ j ≤ x ∧ x < 2 ^ (j + 1) := by
    refine ⟨(Nat.log 2 x), ?_, ?_, ?_⟩
    · exact Nat.log_lt_of_lt_pow hx0 (lt_trans h2 (by norm_num))
    · exact Nat.pow_log_le_self 2 hx0
    · exact Nat.lt_pow_succ_log_self (by omega) x
  obtain ⟨j, hj64, hjle, hjlt⟩ := hex
  have hkj : ilog2 x = j := ilog2_spec j x hj64 hjle hjlt
  rw [hkj]
  refine ⟨hjle, hjlt, ?_, ?_⟩
  · by_contra hcon
    have hj1 : j + 1 ≤ 31 := by omega
    have : (2 : ℕ) ^ (j + 1) ≤ 2 ^ 31 := Nat.pow_le_pow_right (by omega) hj1
    omega
  · by_contra hcon
    have : (2 : ℕ) ^ 63 ≤ 2 ^ j := Nat.pow_le_pow_right (by omega) (by omega)
    omega

/-- C3 (code bug): the Benford64 docstring and the claim promise an exact
round trip for every x with 2 ^ 31 <= x < 2 ^ 63, and under the exact
leading-bit index the scheme indeed round-trips (third conjunct), with the
x = 2 ^ 31 + 12345 scenario coding low bits 12345, length delta 0 and high
bits 0; but the program computes its length through float64 np.log2, which
returns 49 at x = 2 ^ 49 - 1 (the leading-bit index is 48).  The first
conjunct traces the source with that computed length: the leading one is
not removed (x < 2 ^ 49), the high bits are coded at width 18, and decoding
reconstructs 2 ^ 50 - 1 instead of x.  (At x = 2 ^ 63 - 1 the float64
pipeline even yields 64 - 31 = 32 as the length delta, overflowing the
5-bit length field.) -/
theorem c3_benford_code_bug :
    (∀ (xlenF : ℕ → ℕ) (m : ℕ), xlenF (2 ^ 49 - 1) = 49 →
      benfPop (benfPushF xlenF m (2 ^ 49 - 1)) = some (m, 2 ^ 50 - 1)) ∧
    (2 ^ 50 - 1 ≠ 2 ^ 49 - 1) ∧
    (∀ m x, 2 ^ 31 ≤ x → x < 2 ^ 63 → benfPop (benfPush m x) = some (m, x)) ∧
    benfLow (2 ^ 31 + 12345) = 12345 ∧
    benfLenDelta (2 ^ 31 + 12345) = 0 ∧
    benfHigh (2 ^ 31 + 12345) = 0 := by
  refine ⟨?_, by norm_num, fun m x h1 h2 => benfPop_benfPush m x h1 h2,
    by decide, by decide, by decide⟩
  intro xlenF m hx
  have hpush : benfPushF xlenF m (2 ^ 49 - 1) =
      ((m * 2 ^ 31 + (2 ^ 31 - 1)) * 2 ^ 18 + (2 ^ 18 - 1)) * 2 ^ 5 + 18 := by
    simp only [benfPushF, hx, uniformPush_eq]
    norm_num
  rw [hpush, benfPop_layered m 18 (2 ^ 18 - 1) (2 ^ 31 - 1) (by norm_num)
    (by norm_num) (by norm_num)]
  norm_num

/-- Witness for c3_benford_code_bug: the failing trace at x = 2 ^ 49 - 1
with the float64-computed length 49, and the intended round trip at
x = 2 ^ 31. -/
theorem c3_witness :
    benfPop (benfPushF (fun _ => 49) 0 (2 ^ 49 - 1)) = some (0, 2 ^ 50 - 1) ∧
      benfPop (benfPush 7 (2 ^ 31)) = some (7, 2 ^ 31) :=
  ⟨c3_benford_code_bug.1 (fun _ => 49) 0 rfl,
    c3_benford_code_bug.2.2.1 7 (2 ^ 31) (by norm_num) (by norm_num)⟩

/-- C4 (code bug): whatever integer length the float64 pipeline computes,
Benford64 push produces the layered message that codes the low 31 bits, the
high bits at width x_len - 31 and the length delta x_len - 31 over 5 bits
(first conjunct, faithful to the source for any computed length); at the
exact leading-bit index the high bits are x / 2 ^ 31 at that width (second
conjunct, the claim's intended reading); pop reads length, high and low and
reconstructs the disjoint-bit sum (third conjunct, faithful: pop involves
no length computation).  But the claim says the coded length delta is
bit_length(x) - 31 with bit_length the leading-bit index (its delta-0
scenario forces that reading), while at x = 2 ^ 49 - 1 the program, whose
float64 np.log2 returns 49, codes length field 18 where the claim says 17
(fourth conjunct). -/
theorem c4_benford_structure :
    (∀ (xlenF : ℕ → ℕ) (m x : ℕ),
      benfPushF xlenF m x =
        ((m * 2 ^ 31 + x % 2 ^ 31) * 2 ^ (xlenF x - 31) +
          x % 2 ^ xlenF x / 2 ^ 31) * 2 ^ 5 + (xlenF x - 31)) ∧
    (∀ m x, 2 ^ 31 ≤ x → x < 2 ^ 63 →
      benfPush m x =
        ((m * 2 ^ 31 + x % 2 ^ 31) * 2 ^ (ilog2 x - 31) +
          x / 2 ^ 31 % 2 ^ (ilog2 x - 31)) * 2 ^ 5 + (ilog2 x - 31)) ∧
    (∀ m3 len hi lo : ℕ, len < 2 ^ 5 → hi < 2 ^ len → lo < 2 ^ 31 →
      benfPop (((m3 * 2 ^ 31 + lo) * 2 ^ len + hi) * 2 ^ 5 + len) =
        some (m3, 2 ^ (len + 31) + hi * 2 ^ 31 + lo)) ∧
    (∀ xlenF : ℕ → ℕ, xlenF (2 ^ 49 - 1) = 49 → ∀ m : ℕ,
      benfPushF xlenF m (2 ^ 49 - 1) % 2 ^ 5 = 18 ∧
        ilog2 (2 ^ 49 - 1) - 31 = 17) := by
  refine ⟨?_, ?_, benfPop_layered, ?_⟩
  · intro xlenF m x
    simp only [benfPushF, uniformPush_eq]
  · intro m x h1 h2
    obtain ⟨hke, hk1, hk31, hk63⟩ := ilog2_bounds x h1 h2
    have hsplit : (2 : ℕ) ^ ilog2 x = 2 ^ 31 * 2 ^ (ilog2 x - 31) := by
      rw [← pow_add]
      congr 1
      omega
    have hhigh : x % 2 ^ ilog2 x / 2 ^ 31 = x / 2 ^ 31 % 2 ^ (ilog2 x - 31) := by
      rw [hsplit, Nat.mod_mul_right_div_self]
    simp only [benfPush, benfPushF, hhigh, uniformPush_eq]
  · intro xlenF hx m
    constructor
    · have hpush : benfPushF xlenF m (2 ^ 49 - 1) =
          ((m * 2 ^ 31 + (2 ^ 31 - 1)) * 2 ^ 18 + (2 ^ 18 - 1)) * 2 ^ 5 + 18 := by
        simp only [benfPushF, hx, uniformPush_eq]
        norm_num
      rw [hpush, show ((m * 2 ^ 31 + (2 ^ 31 - 1)) * 2 ^ 18 + (2 ^ 18 - 1)) *
        2 ^ 5 + 18 = 18 + 2 ^ 5 *
        ((m * 2 ^ 31 + (2 ^ 31 - 1)) * 2 ^ 18 + (2 ^ 18 - 1)) by ring,
        Nat.add_mul_mod_self_left]
      norm_num
    · decide

/-- Witness for c4_benford_structure: the idealized push structure at
x = 2 ^ 31 + 12345, the pop layering at a small layered message, and the
18-versus-17 length divergence at x = 2 ^ 49 - 1. -/
theorem c4_witness :
    (benfPush 4 (2 ^ 31 + 12345) =
      ((4 * 2 ^ 31 + (2 ^ 31 + 12345) % 2 ^ 31) *
          2 ^ (ilog2 (2 ^ 31 + 12345) - 31) +
        (2 ^ 31 + 12345) / 2 ^ 31 % 2 ^ (ilog2 (2 ^ 31 + 12345) - 31)) * 2 ^ 5 +
        (ilog2 (2 ^ 31 + 12345) - 31)) ∧
    (benfPop (((4 * 2 ^ 31 + 6) * 2 ^ 1 + 1) * 2 ^ 5 + 1) =
      some (4, 2 ^ (1 + 31) + 1 * 2 ^ 31 + 6)) ∧
    (benfPushF (fun _ => 49) 5 (2 ^ 49 - 1) % 2 ^ 5 = 18 ∧
      ilog2 (2 ^ 49 - 1) - 31 = 17) :=
  ⟨c4_benford_structure.2.1 4 (2 ^ 31 + 12345) (by norm_num) (by norm_num),
    c4_benford_structure.2.2.1 4 1 1 6 (by norm_num) (by norm_num) (by norm_num),
    c4_benford_structure.2.2.2 (fun _ => 49) rfl 5⟩

theorem frame_take_drop (off len : ℕ) (head B : List ℕ)
    (hol : off + len ≤ head.length) :
    (head.take off ++ B ++ head.drop (off + len)).take off = head.take off ∧
    (head.take off ++ B ++ head.drop (off + len)).drop (off + B.length) =
      head.drop (off + len) := by
  have hA : (head.take off).length = off := List.length_take_of_le (by omega)
  constructor
  · rw [List.append_assoc]
    exact List.take_left' hA
  · have hAB : (head.take off ++ B).length = off + B.length := by
      rw [List.length_append, hA]
    exact List.drop_left' hAB

/-- C9: substack's push and pop only replace the viewed slice of the head,
selected here by the offset-and-length sub-range descriptor: the head
outside the (possibly resized) written-back slice is exactly the input
head, and the returned tail is exactly the tail produced by the inner
codec. -/
theorem c9_substack_frame {τ δ : Type} (pushI : List ℕ × τ → δ → List ℕ × τ)
    (popI : List ℕ × τ → Option ((List ℕ × τ) × δ)) (off len : ℕ)
    (head : List ℕ) (t : τ) (data : δ) (hol : off + len ≤ head.length) :
    ((substackPush pushI off len (head, t) data).1.take off = head.take off ∧
      (substackPush pushI off len (head, t) data).1.drop
          (off + (pushI ((head.drop off).take len, t) data).1.length) =
        head.drop (off + len) ∧
      (substackPush pushI off len (head, t) data).2 =
        (pushI ((head.drop off).take len, t) data).2) ∧
    (∀ (sub : List ℕ) (t2 : τ) (d : δ),
      popI ((head.drop off).take len, t) = some ((sub, t2), d) →
      substackPop popI off len (head, t) =
          some ((head.take off ++ sub ++ head.drop (off + len), t2), d) ∧
        (head.take off ++ sub ++ head.drop (off + len)).take off =
          head.take off ∧
        (head.take off ++ sub ++ head.drop (off + len)).drop
            (off + sub.length) =
          head.drop (off + len)) := by
  constructor
  · refine ⟨?_, ?_, rfl⟩
    · exact (frame_take_drop off len head _ hol).1
    · exact (frame_take_drop off len head _ hol).2
  · intro sub t2 d hpop
    refine ⟨?_, (frame_take_drop off len head sub hol).1,
      (frame_take_drop off len head sub hol).2⟩
    simp only [substackPop, hpop, Option.map_some']

/-- Witness for c9_substack_frame: identity inner codec, head [1, 2, 3, 4],
offset 1 and length 2; the pop branch applied to the inner pop result. -/
theorem c9_witness :
    substackPop (fun msg => some (msg, (0 : ℕ))) 1 2 (([1, 2, 3, 4], 0) :
        List ℕ × ℕ) =
      some ((([1, 2, 3, 4] : List ℕ).take 1 ++ [2, 3] ++
        ([1, 2, 3, 4] : List ℕ).drop (1 + 2), 0), 0) :=
  ((c9_substack_frame (fun msg _ => msg) (fun msg => some (msg, 0)) 1 2
    [1, 2, 3, 4] 0 0 (by norm_num)).2 [2, 3] 0 0 rfl).1

theorem shift_roundtrip (p m s : ℕ) (hs : s < 2 ^ 8) :
    nonUniformPop (shiftEnc p) (shiftDec p) 8
      (nonUniformPush (shiftEnc p) 8 m s) = some (m, s) := by
  apply nonUniform_roundtrip
  · show 0 < 1
    norm_num
  · show (s + p) % 2 ^ 8 + 1 ≤ 2 ^ 8
    have := Nat.mod_lt (s + p) (show 0 < 2 ^ 8 by norm_num)
    omega
  · intro cf hle hlt
    have hle' : (s + p) % 2 ^ 8 ≤ cf := hle
    have hlt' : cf < (s + p) % 2 ^ 8 + 1 := hlt
    show (cf + 2 ^ 8 - p % 2 ^ 8) % 2 ^ 8 = s
    omega

theorem shiftElem_roundtrip (p idx m s : ℕ) (hs : s < 2 ^ 8) :
    shiftElemPop p idx (shiftElemPush p idx m s) = some (m, s) :=
  shift_roundtrip p m s hs

theorem sumBelowInc_at (data old : ℕ → ℕ) (idx : ℕ) :
    sumBelowInc data old idx idx = sumBelow data idx := by
  simp [sumBelowInc]

/-- C7: AutoRegressive pop visits data positions strictly in elem_idxs
order, recomputing each element's parameter from exactly the previously
decoded entries of the data buffer before decoding it and writing it back;
with push pushing in the reverse of elem_idxs, decoding the 3-element
scenario whose parameter at i is sum(data[0:i]) recovers the encoded data. -/
theorem c7_autoregressive (m d0 d1 d2 : ℕ) (h0 : d0 < 2 ^ 8) (h1 : d1 < 2 ^ 8)
    (h2 : d2 < 2 ^ 8) :
    arPop 0 sumBelowInc [0, 1, 2] shiftElemPop
        (arPush sumBelow [0, 1, 2] shiftElemPush m
          (fun i => [d0, d1, d2].getD i 0)) =
      some (m, fun i => if i < 3 then [d0, d1, d2].getD i 0 else 0) := by
  have hP0 : sumBelow (fun i => [d0, d1, d2].getD i 0) 0 = 0 := rfl
  have hP1 : sumBelow (fun i => [d0, d1, d2].getD i 0) 1 = d0 := by
    simp [sumBelow, List.range_succ]
  have hP2 : sumBelow (fun i => [d0, d1, d2].getD i 0) 2 = d0 + d1 := by
    simp [sumBelow, List.range_succ]
  have hpush : arPush sumBelow [0, 1, 2] shiftElemPush m
      (fun i => [d0, d1, d2].getD i 0) =
      shiftElemPush 0 0 (shiftElemPush d0 1
        (shiftElemPush (d0 + d1) 2 m d2) d1) d0 := by
    show shiftElemPush (sumBelow (fun i => [d0, d1, d2].getD i 0) 0) 0
        (shiftElemPush (sumBelow (fun i => [d0, d1, d2].getD i 0) 1) 1
          (shiftElemPush (sumBelow (fun i => [d0, d1, d2].getD i 0) 2) 2 m d2)
          d1) d0 = _
    rw [hP0, hP1, hP2]
  rw [hpush]
  show arPopGo sumBelowInc shiftElemPop [0, 1, 2]
      (shiftElemPush 0 0 (shiftElemPush d0 1
        (shiftElemPush (d0 + d1) 2 m d2) d1) d0)
      (fun _ => 0) (fun _ => 0) = _
  simp only [arPopGo, sumBelowInc_at]
  have hq0 : sumBelow (fun _ => 0) 0 = 0 := rfl
  rw [hq0, shiftElem_roundtrip 0 0 _ d0 h0, Option.some_bind]
  have hq1 : sumBelow (Function.update (fun _ => 0) 0 d0) 1 = d0 := by
    simp [sumBelow, List.range_succ]
  rw [hq1, shiftElem_roundtrip d0 1 _ d1 h1, Option.some_bind]
  have hq2 : sumBelow (Function.update (Function.update (fun _ => 0) 0 d0) 1 d1)
      2 = d0 + d1 := by
    simp [sumBelow, List.range_succ]
  rw [hq2, shiftElem_roundtrip (d0 + d1) 2 _ d2 h2, Option.some_bind]
  refine congrArg some (congrArg (Prod.mk m) ?_)
  funext i
  match i with
  | 0 => simp [Function.update]
  | 1 => simp [Function.update]
  | 2 => simp [Function.update]
  | n + 3 =>
    simp [Function.update, show n + 3 ≠ 2 by omega, show n + 3 ≠ 1 by omega,
      show n + 3 ≠ 0 by omega, show ¬ (n + 3 < 3) by omega]

/-- Witness for c7_autoregressive: message 9 and data [1, 2, 3]. -/
theorem c7_witness :
    arPop 0 sumBelowInc [0, 1, 2] shiftElemPop
        (arPush sumBelow [0, 1, 2] shiftElemPush 9
          (fun i => [1, 2, 3].getD i 0)) =
      some (9, fun i => if i < 3 then [1, 2, 3].getD i 0 else 0) :=
  c7_autoregressive 9 1 2 3 (by norm_num) (by norm_num) (by norm_num)

/-- C10: AutoRegressive push recomputes all parameters with one param_fn
call exactly when the supplied all_params is falsy under Python and numpy
truth-value semantics (None, an empty array, or a single zero entry); a
single nonzero entry makes the supplied array be used, and an array of two
or more elements makes the truth-value test itself raise, so such an array
can never be used by push. -/
theorem c10_allparams_truthiness (paramFn : (ℕ → ℕ) → List ℚ)
    (elemIdxs : List ℕ) (ep : ℚ → ℕ → ℕ → ℕ → ℕ) (m : ℕ) (data : ℕ → ℕ) :
    (arPushNp paramFn elemIdxs ep m data PyVal.pynone =
        some (arPushCore elemIdxs ep m data (paramFn data))) ∧
    (arPushNp paramFn elemIdxs ep m data (PyVal.arr []) =
        some (arPushCore elemIdxs ep m data (paramFn data))) ∧
    (arPushNp paramFn elemIdxs ep m data (PyVal.arr [0]) =
        some (arPushCore elemIdxs ep m data (paramFn data))) ∧
    (∀ x : ℚ, x ≠ 0 → arPushNp paramFn elemIdxs ep m data (PyVal.arr [x]) =
        some (arPushCore elemIdxs ep m data [x])) ∧
    (∀ l : List ℚ, 2 ≤ l.length →
        arPushNp paramFn elemIdxs ep m data (PyVal.arr l) = none) := by
  refine ⟨rfl, rfl, ?_, ?_, ?_⟩
  · simp [arPushNp, pyNot, npBool]
  · intro x hx
    simp [arPushNp, pyNot, npBool, hx, pyArr]
  · intro l hl
    match l, hl with
    | a :: b :: rest, _ => rfl

/-- Witness for c10_allparams_truthiness: a two-element parameter array
makes push fail before any coding happens. -/
theorem c10_witness :
    arPushNp (fun _ => [1, 2]) [0] (fun _ _ msg s => msg + s) 0 (fun _ => 5)
      (PyVal.arr [1, 1]) = none :=
  (c10_allparams_truthiness (fun _ => [1, 2]) [0] (fun _ _ msg s => msg + s) 0
    (fun _ => 5)).2.2.2.2 [1, 1] (by norm_num)
